import Mathlib

/-!
Shallow embedding of `src/script.js` (client-side interactivity of a
personal-trainer landing page) and proofs about its carousel state machine,
FAQ accordion, form validation, phone-input formatter and submission flow.

Slide indices and touch coordinates are JavaScript numbers holding integer
values in every reachable state, so they are embedded as `Int`.
-/

namespace Personal

/-! ## Carousel (`TransformationsCarousel`, src/script.js lines 909-922)

```js
prevSlide() {
    this.currentSlide = this.currentSlide === 0 ? this.totalSlides - 1 : this.currentSlide - 1;
}
nextSlide() {
    this.currentSlide = this.currentSlide === this.totalSlides - 1 ? 0 : this.currentSlide + 1;
}
goToSlide(index) {
    this.currentSlide = index;
}
```
-/

def nextSlide (N i : Int) : Int := if i = N - 1 then 0 else i + 1

def prevSlide (N i : Int) : Int := if i = 0 then N - 1 else i - 1

inductive CarouselOp where
  | next : CarouselOp
  | prev : CarouselOp
  | goTo (i : Int) : CarouselOp
deriving DecidableEq

def carouselStep (N : Int) (s : Int) : CarouselOp → Int
  | .next => nextSlide N s
  | .prev => prevSlide N s
  | .goTo i => i

/-- The carousel starts at `currentSlide = 0` and folds the operations over
`carouselStep`. -/
def runCarousel (N : Int) (ops : List CarouselOp) : Int :=
  ops.foldl (carouselStep N) 0

/-- Touch-end handler of `setupTouchEvents` (src/script.js lines 868-884):
`diffX = startX - currentX`; if `|diffX| > 50` it fires `nextSlide` when
`diffX > 0` and `prevSlide` otherwise; below the threshold nothing happens. -/
def touchEndSlide (N i startX currentX : Int) : Int :=
  let diffX := startX - currentX
  if 50 < |diffX| then
    if 0 < diffX then nextSlide N i else prevSlide N i
  else i

/-! ### Single-step characterisation of the conditional wrap-around -/

theorem nextSlide_eq_mod {N i : Int} (_hN : 1 ≤ N) (h0 : 0 ≤ i) (hi : i < N) :
    nextSlide N i = (i + 1) % N := by
  unfold nextSlide
  split
  · next h =>
    rw [h, show N - 1 + 1 = N by ring, Int.emod_self]
  · next h =>
    exact (Int.emod_eq_of_lt (by omega) (by omega)).symm

theorem prevSlide_eq_mod {N i : Int} (hN : 1 ≤ N) (h0 : 0 ≤ i) (hi : i < N) :
    prevSlide N i = (i - 1 + N) % N := by
  unfold prevSlide
  split
  · next h =>
    rw [h, show (0 : Int) - 1 + N = N - 1 by ring,
      Int.emod_eq_of_lt (by omega) (by omega)]
  · next h =>
    rw [Int.add_emod_self, Int.emod_eq_of_lt (by omega) (by omega)]

theorem nextSlide_mem {N i : Int} (hN : 1 ≤ N) (h0 : 0 ≤ i) (hi : i < N) :
    0 ≤ nextSlide N i ∧ nextSlide N i < N := by
  unfold nextSlide
  split <;> omega

theorem prevSlide_mem {N i : Int} (hN : 1 ≤ N) (h0 : 0 ≤ i) (hi : i < N) :
    0 ≤ prevSlide N i ∧ prevSlide N i < N := by
  unfold prevSlide
  split <;> omega

theorem nextSlide_iterate {N : Int} (hN : 1 ≤ N) :
    ∀ (n : Nat) (i : Int), 0 ≤ i → i < N →
      (nextSlide N)^[n] i = (i + n) % N := by
  intro n
  induction n with
  | zero =>
    intro i h0 hi
    simpa using (Int.emod_eq_of_lt h0 hi).symm
  | succ n ih =>
    intro i h0 hi
    rw [Function.iterate_succ_apply', ih i h0 hi]
    have hmem : 0 ≤ (i + n) % N ∧ (i + n) % N < N :=
      ⟨Int.emod_nonneg _ (by omega), Int.emod_lt_of_pos _ (by omega)⟩
    rw [nextSlide_eq_mod hN hmem.1 hmem.2, Int.emod_add_emod]
    congr 1
    push_cast
    ring

theorem prevSlide_iterate {N : Int} (hN : 1 ≤ N) :
    ∀ (n : Nat) (i : Int), 0 ≤ i → i < N →
      (prevSlide N)^[n] i = (i - n + n * N) % N := by
  intro n
  induction n with
  | zero =>
    intro i h0 hi
    simpa using (Int.emod_eq_of_lt h0 hi).symm
  | succ n ih =>
    intro i h0 hi
    rw [Function.iterate_succ_apply', ih i h0 hi]
    have hmem : 0 ≤ (i - n + n * N) % N ∧ (i - n + n * N) % N < N :=
      ⟨Int.emod_nonneg _ (by omega), Int.emod_lt_of_pos _ (by omega)⟩
    rw [prevSlide_eq_mod hN hmem.1 hmem.2,
      show (i - n + n * N) % N - 1 + N = (i - n + n * N) % N + (N - 1) by ring,
      Int.emod_add_emod]
    congr 1
    push_cast
    ring

/-- C1: starting from any valid index, iterating `nextSlide` n times lands on
`(i + n) mod N`, and iterating `prevSlide` n times lands on
`(i - n + n*N) mod N`: the conditional wrap-around equals modular arithmetic. -/
theorem carousel_iterate_mod (N i : Int) (n : Nat)
    (hN : 1 ≤ N) (h0 : 0 ≤ i) (hi : i < N) :
    (nextSlide N)^[n] i = (i + n) % N ∧
    (prevSlide N)^[n] i = (i - n + n * N) % N :=
  ⟨nextSlide_iterate hN n i h0 hi, prevSlide_iterate hN n i h0 hi⟩

/-- C1 witness: size 3 carousel, start index 1, five steps each way. -/
theorem carousel_iterate_mod_witness :
    (nextSlide 3)^[5] 1 = (1 + (5 : Nat)) % 3 ∧
    (prevSlide 3)^[5] 1 = (1 - (5 : Nat) + (5 : Nat) * 3) % 3 :=
  carousel_iterate_mod 3 1 5 (by norm_num) (by norm_num) (by norm_num)

/-- C2: with `N ≥ 1` slides, any sequence of next/prev/goTo operations whose
`goTo` arguments are all in `[0, N)` keeps `currentSlide` in `[0, N)`. -/
theorem carousel_invariant (N : Int) (ops : List CarouselOp)
    (hN : 1 ≤ N)
    (hops : ∀ i : Int, CarouselOp.goTo i ∈ ops → 0 ≤ i ∧ i < N) :
    0 ≤ runCarousel N ops ∧ runCarousel N ops < N := by
  unfold runCarousel
  have general : ∀ (l : List CarouselOp) (s : Int),
      (∀ i : Int, CarouselOp.goTo i ∈ l → 0 ≤ i ∧ i < N) →
      0 ≤ s → s < N → 0 ≤ l.foldl (carouselStep N) s ∧ l.foldl (carouselStep N) s < N := by
    intro l
    induction l with
    | nil => intro s _ h0 hs; exact ⟨h0, hs⟩
    | cons op rest ih =>
      intro s hl h0 hs
      have hrest : ∀ i : Int, CarouselOp.goTo i ∈ rest → 0 ≤ i ∧ i < N := by
        intro i hi; exact hl i (List.mem_cons_of_mem _ hi)
      have hstep : 0 ≤ carouselStep N s op ∧ carouselStep N s op < N := by
        cases op with
        | next => exact nextSlide_mem hN h0 hs
        | prev => exact prevSlide_mem hN h0 hs
        | goTo i => exact hl i (List.mem_cons_self _ _)
      exact ih (carouselStep N s op) hrest hstep.1 hstep.2
  exact general ops 0 hops (le_refl 0) (by omega)

/-- C2 witness: size 2, running next, next, prev, goTo 1. -/
theorem carousel_invariant_witness :
    0 ≤ runCarousel 2 [.next, .next, .prev, .goTo 1] ∧
    runCarousel 2 [.next, .next, .prev, .goTo 1] < 2 := by
  refine carousel_invariant 2 _ (by norm_num) ?_
  intro i hi
  simp only [List.mem_cons, List.not_mem_nil, or_false] at hi
  rcases hi with h | h | h | h <;> simp_all

/-- C9: a swipe with displacement `startX - currentX` beyond the 50px threshold
advances (displacement positive) or retreats (otherwise) exactly one slide,
computed modularly; a sub-threshold swipe leaves the index unchanged. -/
theorem touchEnd_spec (N i s c : Int) (hN : 1 ≤ N) (h0 : 0 ≤ i) (hi : i < N) :
    (50 < |s - c| → 0 < s - c → touchEndSlide N i s c = (i + 1) % N) ∧
    (50 < |s - c| → s - c ≤ 0 → touchEndSlide N i s c = (i - 1 + N) % N) ∧
    (|s - c| ≤ 50 → touchEndSlide N i s c = i) := by
  refine ⟨?_, ?_, ?_⟩
  · intro hth hpos
    unfold touchEndSlide
    simp only [if_pos hth, if_pos hpos]
    exact nextSlide_eq_mod hN h0 hi
  · intro hth hneg
    unfold touchEndSlide
    simp only [if_pos hth, if_neg (by omega : ¬ 0 < s - c)]
    exact prevSlide_eq_mod hN h0 hi
  · intro hth
    unfold touchEndSlide
    simp only [if_neg (by omega : ¬ 50 < |s - c|)]

/-- C9 witness: size 3, index 0, forward swipe of 100px. -/
theorem touchEnd_spec_witness :
    touchEndSlide 3 0 180 80 = (0 + 1) % 3 :=
  ((touchEnd_spec 3 0 180 80 (by norm_num) (by norm_num) (by norm_num)).1
    (by norm_num) (by norm_num))

/-! ## FAQ accordion (`FAQManager.toggleFAQ`, src/script.js lines 773-787)

```js
toggleFAQ(item) {
    const isActive = item.classList.contains('active');
    if (isActive) {
        item.classList.remove('active');
    } else {
        this.faqItems.forEach(faqItem => { faqItem.classList.remove('active'); });
        item.classList.add('active');
    }
}
```

The state is which items carry the `active` class: a boolean per item. -/

def toggleFAQ {ι : Type} [DecidableEq ι] (st : ι → Bool) (k : ι) : ι → Bool :=
  if st k then fun j => if j = k then false else st j
  else fun j => decide (j = k)

/-- All FAQ items start without the `active` class. -/
def initFAQ {ι : Type} : ι → Bool := fun _ => false

def runFAQ {ι : Type} [DecidableEq ι] (ops : List ι) : ι → Bool :=
  ops.foldl toggleFAQ initFAQ

def atMostOneOpen {ι : Type} (st : ι → Bool) : Prop :=
  ∀ i j, st i = true → st j = true → i = j

theorem toggleFAQ_preserves {ι : Type} [DecidableEq ι] (st : ι → Bool) (k : ι)
    (h : atMostOneOpen st) : atMostOneOpen (toggleFAQ st k) := by
  unfold toggleFAQ
  split
  · intro i j hi hj
    simp only [] at hi hj
    split at hi
    · exact absurd hi (by simp)
    · split at hj
      · exact absurd hj (by simp)
      · exact h i j hi hj
  · intro i j hi hj
    simp only [decide_eq_true_eq] at hi hj
    rw [hi, hj]

theorem runFAQ_atMostOne {ι : Type} [DecidableEq ι] (ops : List ι) :
    atMostOneOpen (runFAQ ops) := by
  unfold runFAQ
  have general : ∀ (l : List ι) (st : ι → Bool),
      atMostOneOpen st → atMostOneOpen (l.foldl toggleFAQ st) := by
    intro l
    induction l with
    | nil => intro st h; exact h
    | cons k rest ih => intro st h; exact ih _ (toggleFAQ_preserves st k h)
  exact general ops initFAQ (by intro i j hi _; simp [initFAQ] at hi)

/-- C6: in any reachable FAQ state (any toggle sequence from all-closed),
at most one item is open; toggling a closed item `k` opens `k` and every other
item ends closed; toggling an open item leaves every item closed. -/
theorem faq_accordion {ι : Type} [DecidableEq ι] (ops : List ι) (k : ι) :
    atMostOneOpen (runFAQ ops) ∧
    (runFAQ ops k = false →
      toggleFAQ (runFAQ ops) k k = true ∧
      ∀ j, j ≠ k → toggleFAQ (runFAQ ops) k j = false) ∧
    (runFAQ ops k = true → ∀ j, toggleFAQ (runFAQ ops) k j = false) := by
  refine ⟨runFAQ_atMostOne ops, ?_, ?_⟩
  · intro hclosed
    unfold toggleFAQ
    rw [hclosed]
    simp
  · intro hopen
    unfold toggleFAQ
    rw [hopen]
    intro j
    simp only [if_true]
    split
    · rfl
    · next hjk =>
      by_contra hj
      exact hjk (runFAQ_atMostOne ops j k (by simpa using hj) hopen)

/-- C6 witness: three items, toggle item 0 then query toggling item 1. -/
theorem faq_accordion_witness :
    toggleFAQ (runFAQ [(0 : Fin 3)]) 1 1 = true ∧
    ∀ j, j ≠ 1 → toggleFAQ (runFAQ [(0 : Fin 3)]) 1 j = false :=
  (faq_accordion [(0 : Fin 3)] 1).2.1 (by decide)

/-! ## Live phone-input formatter (`FormManager.handleInputFormatting`,
src/script.js lines 453-473)

```js
let value = e.target.value.replace(/\D/g, '');
if (value.length > 11) { value = value.slice(0, 11); }
if (value.length > 6) {
    value = value.replace(/(\d{2})(\d{5})(\d{4})/, '($1) $2-$3');
} else if (value.length > 2) {
    value = value.replace(/(\d{2})(\d+)/, '($1) $2');
}
e.target.value = value;
```
-/

/-- The digits of the field value: non-digits stripped, truncated to 11
(`value.replace(/\D/g, '')` followed by `value.slice(0, 11)` when longer). -/
def phoneInputDigits (s : String) : List Char :=
  if (s.toList.filter Char.isDigit).length > 11 then
    (s.toList.filter Char.isDigit).take 11
  else
    s.toList.filter Char.isDigit

/-- The two `String.replace` calls, embedded on their actual input domain
(an all-digit string of length at most 11):
`replace(/(\d{2})(\d{5})(\d{4})/, '($1) $2-$3')` needs 11 consecutive digits,
so on this domain it matches exactly when the length is 11 and otherwise
leaves the string unchanged; `replace(/(\d{2})(\d+)/, '($1) $2')` matches at
position 0 with the greedy `(\d+)` capturing the whole remainder. -/
def formatDigits (v : List Char) : List Char :=
  if v.length > 6 then
    if v.length = 11 then
      '(' :: v.take 2 ++ ')' :: ' ' :: ((v.drop 2).take 5 ++ '-' :: v.drop 7)
    else v
  else if v.length > 2 then
    '(' :: v.take 2 ++ ')' :: ' ' :: v.drop 2
  else v

def handleInputFormatting (s : String) : String :=
  (formatDigits (phoneInputDigits s)).asString

theorem toList_asString (l : List Char) : (List.asString l).toList = l := rfl

theorem phoneInputDigits_isDigit (s : String) :
    ∀ c ∈ phoneInputDigits s, c.isDigit = true := by
  intro c hc
  unfold phoneInputDigits at hc
  split at hc
  · exact List.of_mem_filter (List.take_subset _ _ hc)
  · exact List.of_mem_filter hc

theorem phoneInputDigits_length_le (s : String) :
    (phoneInputDigits s).length ≤ 11 := by
  unfold phoneInputDigits
  split
  · exact List.length_take_le 11 _
  · omega

theorem filter_formatDigits (v : List Char) (hv : ∀ c ∈ v, c.isDigit = true) :
    (formatDigits v).filter Char.isDigit = v := by
  have hself : v.filter Char.isDigit = v :=
    List.filter_eq_self.mpr hv
  have hsub : ∀ (w : List Char), w ⊆ v → w.filter Char.isDigit = w := by
    intro w hw
    exact List.filter_eq_self.mpr (fun c hc => hv c (hw hc))
  unfold formatDigits
  split
  · split
    · simp only [List.filter_append, List.filter_cons,
        show Char.isDigit '(' = false from rfl,
        show Char.isDigit ')' = false from rfl,
        show Char.isDigit ' ' = false from rfl,
        show Char.isDigit '-' = false from rfl, Bool.false_eq_true, if_false]
      rw [hsub _ (List.take_subset _ _),
        hsub _ (fun c hc => (List.drop_subset _ _) (List.take_subset _ _ hc)),
        hsub _ (List.drop_subset _ _)]
      rw [show v.drop 7 = (v.drop 2).drop 5 by rw [List.drop_drop]]
      rw [List.take_append_drop, List.take_append_drop]
    · exact hself
  · split
    · simp only [List.filter_append, List.filter_cons,
        show Char.isDigit '(' = false from rfl,
        show Char.isDigit ')' = false from rfl,
        show Char.isDigit ' ' = false from rfl, Bool.false_eq_true, if_false]
      rw [hsub _ (List.take_subset _ _), hsub _ (List.drop_subset _ _),
        List.take_append_drop]
    · exact hself

theorem phoneInputDigits_congr (t : String) (w : List Char)
    (hw : t.toList.filter Char.isDigit = w) (hlen : w.length ≤ 11) :
    phoneInputDigits t = w := by
  unfold phoneInputDigits
  rw [hw, if_neg (by omega)]

theorem phoneInputDigits_handleInputFormatting (s : String) :
    phoneInputDigits (handleInputFormatting s) = phoneInputDigits s := by
  refine phoneInputDigits_congr _ _ ?_ (phoneInputDigits_length_le s)
  unfold handleInputFormatting
  rw [toList_asString]
  exact filter_formatDigits _ (phoneInputDigits_isDigit s)

/-- C10: the live phone-input formatter is idempotent: formatting its own
output leaves it unchanged. -/
theorem handleInputFormatting_idempotent (s : String) :
    handleInputFormatting (handleInputFormatting s) = handleInputFormatting s := by
  have h := phoneInputDigits_handleInputFormatting s
  unfold handleInputFormatting at h ⊢
  rw [h]

/-- C3 counterexample: the code leaves a 7-digit value unformatted (the
11-digit replace pattern does not match), contradicting the claimed
`"8198888" → "(81) 98888"`. -/
theorem formatter_claim_counterexample :
    handleInputFormatting "8198888" ≠ "(81) 98888" := by decide

/-- C3 amended: the full `(DD) DDDDD-DDDD` punctuation is applied exactly when
the (truncated) digit count is 11; the `(DD) D...` punctuation is applied when
the count is in 3..6; for counts 7..10 and 0..2 the digits are left
unpunctuated. In particular "81988887777" formats fully, "81" is unchanged,
and "8198888" is returned as the bare digit string "8198888". -/
theorem formatter_amended :
    (∀ s : String,
      ((phoneInputDigits s).length = 11 →
        handleInputFormatting s =
          ('(' :: (phoneInputDigits s).take 2 ++ ')' :: ' ' ::
            (((phoneInputDigits s).drop 2).take 5 ++ '-' ::
              (phoneInputDigits s).drop 7)).asString) ∧
      (2 < (phoneInputDigits s).length ∧ (phoneInputDigits s).length ≤ 6 →
        handleInputFormatting s =
          ('(' :: (phoneInputDigits s).take 2 ++ ')' :: ' ' ::
            (phoneInputDigits s).drop 2).asString) ∧
      (6 < (phoneInputDigits s).length ∧ (phoneInputDigits s).length < 11 →
        handleInputFormatting s = (phoneInputDigits s).asString) ∧
      ((phoneInputDigits s).length ≤ 2 →
        handleInputFormatting s = (phoneInputDigits s).asString)) ∧
    handleInputFormatting "81988887777" = "(81) 98888-7777" ∧
    handleInputFormatting "8198888" = "8198888" ∧
    handleInputFormatting "81" = "81" := by
  refine ⟨?_, by decide, by decide, by decide⟩
  intro s
  unfold handleInputFormatting formatDigits
  refine ⟨?_, ?_, ?_, ?_⟩
  · intro h
    rw [if_pos (by omega), if_pos h]
  · intro h
    rw [if_neg (by omega), if_pos (by omega)]
  · intro h
    rw [if_pos (by omega), if_neg (by omega)]
  · intro h
    rw [if_neg (by omega), if_neg (by omega)]

/-- C3 amended witness: the 7-digit input is returned as bare digits. -/
theorem formatter_amended_witness :
    handleInputFormatting "8198888" = (phoneInputDigits "8198888").asString :=
  (formatter_amended.1 "8198888").2.2.1 (by decide)

/-! ## Validators (`Utils.isValidEmail` / `Utils.isValidPhone`,
src/script.js lines 62-71)

```js
isValidEmail(email) {
    const emailRegex = /^[^\s@]+@[^\s@]+\.[^\s@]+$/;
    return emailRegex.test(email);
}
isValidPhone(phone) {
    const phoneRegex = /^(\(\d{2}\)|\d{2})\s?9?\d{4}-?\d{4}$/;
    return phoneRegex.test(phone.replace(/\s/g, ''));
}
```

The anchored regexes are embedded as explicit backtracking matchers over
`List Char`; the characterisation theorems below prove each matcher accepts
exactly the decomposition language of its regex. -/

/-- The JavaScript regex character class `\s` (ECMAScript WhiteSpace and
LineTerminator code points). -/
def jsWhitespace (c : Char) : Bool :=
  c == ' ' || c == '\t' || c == '\n' || c == '\r' || c == '\x0b' || c == '\x0c' ||
  c == '\u00A0' || c == '\u1680' || (0x2000 ≤ c.toNat && c.toNat ≤ 0x200A) ||
  c == '\u2028' || c == '\u2029' || c == '\u202F' || c == '\u205F' ||
  c == '\u3000' || c == '\uFEFF'

/-- One character of the class `[^\s@]`. -/
def isEmailChar (c : Char) : Bool := !jsWhitespace c && c != '@'

/-- Matcher for the trailing `[^\s@]+$`. -/
def emailAfterDot (cs : List Char) : Bool := !cs.isEmpty && cs.all isEmailChar

/-- Matcher for `[^\s@]*\.[^\s@]+$`: reached after at least one character of
the `[^\s@]+` group before the dot has been consumed.  A dot can either be the
literal `\.` of the pattern (first alternative) or one more character of the
group (second alternative, since `.` belongs to `[^\s@]`). -/
def emailMid : List Char → Bool
  | [] => false
  | c :: rest => (c == '.' && emailAfterDot rest) || (isEmailChar c && emailMid rest)

/-- Matcher for `[^\s@]+\.[^\s@]+$`, the part after the `@`. -/
def emailDomain : List Char → Bool
  | [] => false
  | c :: rest => isEmailChar c && emailMid rest

/-- Matcher for the rest of `^[^\s@]+@[^\s@]+\.[^\s@]+$` once at least one
character of the local part has been consumed. -/
def emailLocal : List Char → Bool
  | [] => false
  | c :: rest => (c == '@' && emailDomain rest) || (isEmailChar c && emailLocal rest)

/-- `Utils.isValidEmail`: test of `/^[^\s@]+@[^\s@]+\.[^\s@]+$/`. -/
def isValidEmail (s : String) : Bool :=
  match s.toList with
  | [] => false
  | c :: rest => isEmailChar c && emailLocal rest

theorem isEmailChar_iff (c : Char) :
    isEmailChar c = true ↔ jsWhitespace c = false ∧ c ≠ '@' := by
  simp [isEmailChar]

theorem emailAfterDot_iff (cs : List Char) :
    emailAfterDot cs = true ↔ cs ≠ [] ∧ ∀ c ∈ cs, isEmailChar c = true := by
  simp [emailAfterDot, List.all_eq_true, List.isEmpty_iff]

theorem emailMid_iff (cs : List Char) :
    emailMid cs = true ↔
    ∃ B C : List Char, (∀ c ∈ B, isEmailChar c = true) ∧ C ≠ [] ∧
      (∀ c ∈ C, isEmailChar c = true) ∧ cs = B ++ '.' :: C := by
  induction cs with
  | nil =>
    simp only [emailMid]
    constructor
    · intro h; exact absurd h (by simp)
    · rintro ⟨B, C, -, -, -, habs⟩
      cases B <;> simp at habs
  | cons c rest ih =>
    simp only [emailMid, Bool.or_eq_true, Bool.and_eq_true, beq_iff_eq]
    constructor
    · rintro (⟨rfl, haft⟩ | ⟨hch, hmid⟩)
      · obtain ⟨hne, hall⟩ := (emailAfterDot_iff rest).mp haft
        exact ⟨[], rest, by simp, hne, hall, rfl⟩
      · obtain ⟨B, C, hB, hC, hCall, heq⟩ := ih.mp hmid
        refine ⟨c :: B, C, ?_, hC, hCall, by simp [heq]⟩
        intro x hx
        rcases List.mem_cons.mp hx with rfl | hx
        · exact hch
        · exact hB x hx
    · rintro ⟨B, C, hB, hC, hCall, heq⟩
      cases B with
      | nil =>
        simp only [List.nil_append, List.cons.injEq] at heq
        refine Or.inl ⟨heq.1, ?_⟩
        rw [heq.2]
        exact (emailAfterDot_iff C).mpr ⟨hC, hCall⟩
      | cons b B' =>
        simp only [List.cons_append, List.cons.injEq] at heq
        refine Or.inr ⟨heq.1 ▸ hB b (List.mem_cons_self _ _), ?_⟩
        exact ih.mpr ⟨B', C, fun x hx => hB x (List.mem_cons_of_mem _ hx), hC, hCall, heq.2⟩

theorem emailDomain_iff (cs : List Char) :
    emailDomain cs = true ↔
    ∃ B C : List Char, B ≠ [] ∧ (∀ c ∈ B, isEmailChar c = true) ∧ C ≠ [] ∧
      (∀ c ∈ C, isEmailChar c = true) ∧ cs = B ++ '.' :: C := by
  cases cs with
  | nil =>
    simp only [emailDomain]
    constructor
    · intro h; exact absurd h (by simp)
    · rintro ⟨B, C, hBne, -, -, -, habs⟩
      cases B with
      | nil => exact absurd rfl hBne
      | cons b B' => simp at habs
  | cons c rest =>
    simp only [emailDomain, Bool.and_eq_true]
    constructor
    · rintro ⟨hch, hmid⟩
      obtain ⟨B, C, hB, hC, hCall, heq⟩ := (emailMid_iff rest).mp hmid
      refine ⟨c :: B, C, by simp, ?_, hC, hCall, by simp [heq]⟩
      intro x hx
      rcases List.mem_cons.mp hx with rfl | hx
      · exact hch
      · exact hB x hx
    · rintro ⟨B, C, hBne, hB, hC, hCall, heq⟩
      cases B with
      | nil => exact absurd rfl hBne
      | cons b B' =>
        simp only [List.cons_append, List.cons.injEq] at heq
        refine ⟨heq.1 ▸ hB b (List.mem_cons_self _ _), ?_⟩
        rw [heq.2]
        exact (emailMid_iff _).mpr
          ⟨B', C, fun x hx => hB x (List.mem_cons_of_mem _ hx), hC, hCall, rfl⟩

theorem emailLocal_iff (cs : List Char) :
    emailLocal cs = true ↔
    ∃ A R : List Char, (∀ c ∈ A, isEmailChar c = true) ∧
      emailDomain R = true ∧ cs = A ++ '@' :: R := by
  induction cs with
  | nil =>
    simp only [emailLocal]
    constructor
    · intro h; exact absurd h (by simp)
    · rintro ⟨A, R, -, -, habs⟩
      cases A <;> simp at habs
  | cons c rest ih =>
    simp only [emailLocal, Bool.or_eq_true, Bool.and_eq_true, beq_iff_eq]
    constructor
    · rintro (⟨rfl, hdom⟩ | ⟨hch, hloc⟩)
      · exact ⟨[], rest, by simp, hdom, rfl⟩
      · obtain ⟨A, R, hA, hdom, heq⟩ := ih.mp hloc
        refine ⟨c :: A, R, ?_, hdom, by simp [heq]⟩
        intro x hx
        rcases List.mem_cons.mp hx with rfl | hx
        · exact hch
        · exact hA x hx
    · rintro ⟨A, R, hA, hdom, heq⟩
      cases A with
      | nil =>
        simp only [List.nil_append, List.cons.injEq] at heq
        exact Or.inl ⟨heq.1, by rw [heq.2]; exact hdom⟩
      | cons a A' =>
        simp only [List.cons_append, List.cons.injEq] at heq
        refine Or.inr ⟨heq.1 ▸ hA a (List.mem_cons_self _ _), ?_⟩
        exact ih.mpr ⟨A', R, fun x hx => hA x (List.mem_cons_of_mem _ hx), hdom, heq.2⟩

/-- C4: `isValidEmail` accepts exactly the strings of shape
`A ++ "@" ++ B ++ "." ++ C` with `A`, `B`, `C` nonempty sequences of
characters that are neither whitespace nor `@`; and the three boundary
examples behave as the spec states. -/
theorem isValidEmail_spec :
    (∀ s : String, isValidEmail s = true ↔
      ∃ A B C : List Char, A ≠ [] ∧ B ≠ [] ∧ C ≠ [] ∧
        (∀ c ∈ A ++ B ++ C, jsWhitespace c = false ∧ c ≠ '@') ∧
        s.toList = A ++ '@' :: (B ++ '.' :: C)) ∧
    isValidEmail "a@b.co" = true ∧
    isValidEmail "a@b" = false ∧
    isValidEmail "a.b@c" = false := by
  refine ⟨?_, by decide, by decide, by decide⟩
  intro s
  unfold isValidEmail
  constructor
  · intro h
    match hs : s.toList with
    | [] => rw [hs] at h; exact absurd h (by simp)
    | c :: rest =>
      rw [hs, Bool.and_eq_true] at h
      obtain ⟨hch, hloc⟩ := h
      obtain ⟨A, R, hA, hdom, heqR⟩ := (emailLocal_iff rest).mp hloc
      obtain ⟨B, C, hBne, hB, hCne, hC, heqD⟩ := (emailDomain_iff R).mp hdom
      refine ⟨c :: A, B, C, by simp, hBne, hCne, ?_, by simp [hs, heqR, heqD]⟩
      intro x hx
      simp only [List.append_assoc, List.mem_append, List.mem_cons] at hx
      rcases hx with (rfl | hx) | hx | hx
      · exact (isEmailChar_iff x).mp hch
      · exact (isEmailChar_iff x).mp (hA x hx)
      · exact (isEmailChar_iff x).mp (hB x hx)
      · exact (isEmailChar_iff x).mp (hC x hx)
  · rintro ⟨A, B, C, hAne, hBne, hCne, hclass, heq⟩
    have hchar : ∀ x, (x ∈ A ∨ x ∈ B ∨ x ∈ C) → isEmailChar x = true := by
      intro x hx
      refine (isEmailChar_iff x).mpr (hclass x ?_)
      simp only [List.append_assoc, List.mem_append]
      tauto
    cases A with
    | nil => exact absurd rfl hAne
    | cons a A' =>
      rw [heq]
      simp only [List.cons_append, Bool.and_eq_true]
      refine ⟨hchar a (Or.inl (List.mem_cons_self _ _)), ?_⟩
      refine (emailLocal_iff _).mpr ⟨A', B ++ '.' :: C, ?_, ?_, rfl⟩
      · exact fun x hx => hchar x (Or.inl (List.mem_cons_of_mem _ hx))
      · exact (emailDomain_iff _).mpr
          ⟨B, C, hBne, fun x hx => hchar x (Or.inr (Or.inl hx)), hCne,
            fun x hx => hchar x (Or.inr (Or.inr hx)), rfl⟩

/-! ### Phone validator matchers -/

/-- Matcher for the final `\d{4}$`. -/
def fourDigitsEnd (cs : List Char) : Bool := cs.length == 4 && cs.all Char.isDigit

/-- Matcher for `-?\d{4}$`. -/
def phoneEnd : List Char → Bool
  | [] => false
  | c :: rest => (c == '-' && fourDigitsEnd rest) || fourDigitsEnd (c :: rest)

/-- Matcher for `\d{4}-?\d{4}$`. -/
def phoneCore : List Char → Bool
  | a :: b :: c :: d :: rest =>
    a.isDigit && b.isDigit && c.isDigit && d.isDigit && phoneEnd rest
  | _ => false

/-- Matcher for `9?\d{4}-?\d{4}$`. -/
def phoneAfter9 : List Char → Bool
  | [] => false
  | c :: rest => (c == '9' && phoneCore rest) || phoneCore (c :: rest)

/-- Matcher for `\s?9?\d{4}-?\d{4}$`. -/
def phoneAfterArea : List Char → Bool
  | [] => false
  | c :: rest => (jsWhitespace c && phoneAfter9 rest) || phoneAfter9 (c :: rest)

/-- Matcher for the area-code alternative `\(\d{2}\)` followed by the rest. -/
def phoneParen : List Char → Bool
  | c1 :: a :: b :: c2 :: rest =>
    c1 == '(' && a.isDigit && b.isDigit && c2 == ')' && phoneAfterArea rest
  | _ => false

/-- Matcher for the bare area-code alternative `\d{2}` followed by the rest. -/
def phoneBare : List Char → Bool
  | a :: b :: rest => a.isDigit && b.isDigit && phoneAfterArea rest
  | _ => false

/-- Matcher for the whole `/^(\(\d{2}\)|\d{2})\s?9?\d{4}-?\d{4}$/`. -/
def phoneMatch (cs : List Char) : Bool := phoneParen cs || phoneBare cs

/-- `phone.replace(/\s/g, '')`: drop every `\s` character. -/
def stripWs (p : String) : List Char := p.toList.filter (fun c => !jsWhitespace c)

/-- `Utils.isValidPhone`: the regex is tested against the
whitespace-stripped input. -/
def isValidPhone (p : String) : Bool := phoneMatch (stripWs p)

theorem length_eq_four {α : Type} (l : List α) (h : l.length = 4) :
    ∃ a b c d : α, l = [a, b, c, d] := by
  match l, h with
  | [a, b, c, d], _ => exact ⟨a, b, c, d, rfl⟩

theorem fourDigitsEnd_iff (cs : List Char) :
    fourDigitsEnd cs = true ↔ cs.length = 4 ∧ ∀ c ∈ cs, c.isDigit = true := by
  simp [fourDigitsEnd, List.all_eq_true]

theorem phoneEnd_iff (cs : List Char) :
    phoneEnd cs = true ↔
    ∃ hy D : List Char, (hy = [] ∨ hy = ['-']) ∧ D.length = 4 ∧
      (∀ c ∈ D, c.isDigit = true) ∧ cs = hy ++ D := by
  cases cs with
  | nil =>
    simp only [phoneEnd]
    constructor
    · intro h; exact absurd h (by simp)
    · rintro ⟨hy, D, hhy, hl, -, heq⟩
      rcases hhy with rfl | rfl <;> simp_all
  | cons c rest =>
    simp only [phoneEnd, Bool.or_eq_true, Bool.and_eq_true, beq_iff_eq]
    constructor
    · rintro (⟨rfl, h4⟩ | h4)
      · obtain ⟨hl, hd⟩ := (fourDigitsEnd_iff rest).mp h4
        exact ⟨['-'], rest, Or.inr rfl, hl, hd, rfl⟩
      · obtain ⟨hl, hd⟩ := (fourDigitsEnd_iff _).mp h4
        exact ⟨[], c :: rest, Or.inl rfl, hl, hd, rfl⟩
    · rintro ⟨hy, D, hhy | hhy, hl, hd, heq⟩
      · subst hhy
        simp only [List.nil_append] at heq
        exact Or.inr ((fourDigitsEnd_iff _).mpr (heq ▸ ⟨hl, hd⟩))
      · subst hhy
        simp only [List.cons_append, List.nil_append, List.cons.injEq] at heq
        exact Or.inl ⟨heq.1, (fourDigitsEnd_iff _).mpr (heq.2 ▸ ⟨hl, hd⟩)⟩

theorem phoneCore_iff (cs : List Char) :
    phoneCore cs = true ↔
    ∃ D rest : List Char, D.length = 4 ∧ (∀ c ∈ D, c.isDigit = true) ∧
      phoneEnd rest = true ∧ cs = D ++ rest := by
  constructor
  · intro h
    match cs, h with
    | a :: b :: c :: d :: rest, h =>
      simp only [phoneCore, Bool.and_eq_true] at h
      obtain ⟨⟨⟨⟨ha, hb⟩, hc⟩, hd⟩, he⟩ := h
      refine ⟨[a, b, c, d], rest, rfl, ?_, he, rfl⟩
      intro x hx
      rcases hx with _ | ⟨_, _ | ⟨_, _ | ⟨_, _ | ⟨_, h⟩⟩⟩⟩ <;> first
        | assumption
        | exact absurd (by assumption : x ∈ ([] : List Char)) (by simp)
  · rintro ⟨D, rest, hl, hd, he, heq⟩
    obtain ⟨a, b, c, d, rfl⟩ := length_eq_four D hl
    subst heq
    simp only [phoneCore, List.cons_append, List.nil_append, Bool.and_eq_true]
    refine ⟨⟨⟨⟨?_, ?_⟩, ?_⟩, ?_⟩, he⟩ <;> apply hd <;> simp

theorem phoneAfter9_iff (cs : List Char) :
    phoneAfter9 cs = true ↔
    ∃ nine rest : List Char, (nine = [] ∨ nine = ['9']) ∧
      phoneCore rest = true ∧ cs = nine ++ rest := by
  cases cs with
  | nil =>
    simp only [phoneAfter9]
    constructor
    · intro h; exact absurd h (by simp)
    · rintro ⟨nine, rest, hn, hc, heq⟩
      have hne : rest ≠ [] := by
        intro hr; rw [hr] at hc; exact absurd hc (by decide)
      rcases hn with rfl | rfl
      · simp only [List.nil_append] at heq
        exact absurd heq.symm hne
      · exact absurd heq (by simp)
  | cons c rest =>
    simp only [phoneAfter9, Bool.or_eq_true, Bool.and_eq_true, beq_iff_eq]
    constructor
    · rintro (⟨rfl, hc⟩ | hc)
      · exact ⟨['9'], rest, Or.inr rfl, hc, rfl⟩
      · exact ⟨[], c :: rest, Or.inl rfl, hc, rfl⟩
    · rintro ⟨nine, r, hn | hn, hc, heq⟩
      · subst hn
        simp only [List.nil_append] at heq
        exact Or.inr (heq ▸ hc)
      · subst hn
        simp only [List.cons_append, List.nil_append, List.cons.injEq] at heq
        exact Or.inl ⟨heq.1, heq.2 ▸ hc⟩

theorem phoneAfterArea_iff (cs : List Char) :
    phoneAfterArea cs = true ↔
    ∃ sp rest : List Char,
      (sp = [] ∨ ∃ w, jsWhitespace w = true ∧ sp = [w]) ∧
      phoneAfter9 rest = true ∧ cs = sp ++ rest := by
  cases cs with
  | nil =>
    simp only [phoneAfterArea]
    constructor
    · intro h; exact absurd h (by simp)
    · rintro ⟨sp, rest, hs, h9, heq⟩
      have hne : rest ≠ [] := by
        intro hr; rw [hr] at h9; exact absurd h9 (by decide)
      rcases hs with rfl | ⟨w, -, rfl⟩
      · simp only [List.nil_append] at heq
        exact absurd heq.symm hne
      · exact absurd heq (by simp)
  | cons c rest =>
    simp only [phoneAfterArea, Bool.or_eq_true, Bool.and_eq_true]
    constructor
    · rintro (⟨hw, h9⟩ | h9)
      · exact ⟨[c], rest, Or.inr ⟨c, hw, rfl⟩, h9, rfl⟩
      · exact ⟨[], c :: rest, Or.inl rfl, h9, rfl⟩
    · rintro ⟨sp, r, hs | ⟨w, hw, hsp⟩, h9, heq⟩
      · subst hs
        simp only [List.nil_append] at heq
        exact Or.inr (heq ▸ h9)
      · subst hsp
        simp only [List.cons_append, List.nil_append, List.cons.injEq] at heq
        exact Or.inl ⟨heq.1 ▸ hw, heq.2 ▸ h9⟩

theorem phoneParen_iff (cs : List Char) :
    phoneParen cs = true ↔
    ∃ a b rest, a.isDigit = true ∧ b.isDigit = true ∧
      phoneAfterArea rest = true ∧ cs = '(' :: a :: b :: ')' :: rest := by
  constructor
  · intro h
    match cs, h with
    | c1 :: a :: b :: c2 :: rest, h =>
      simp only [phoneParen, Bool.and_eq_true, beq_iff_eq] at h
      obtain ⟨⟨⟨⟨rfl, ha⟩, hb⟩, rfl⟩, hr⟩ := h
      exact ⟨a, b, rest, ha, hb, hr, rfl⟩
  · rintro ⟨a, b, rest, ha, hb, hr, rfl⟩
    simp [phoneParen, ha, hb, hr]

theorem phoneBare_iff (cs : List Char) :
    phoneBare cs = true ↔
    ∃ a b rest, a.isDigit = true ∧ b.isDigit = true ∧
      phoneAfterArea rest = true ∧ cs = a :: b :: rest := by
  constructor
  · intro h
    match cs, h with
    | a :: b :: rest, h =>
      simp only [phoneBare, Bool.and_eq_true] at h
      exact ⟨a, b, rest, h.1.1, h.1.2, h.2, rfl⟩
  · rintro ⟨a, b, rest, ha, hb, hr, rfl⟩
    simp only [phoneBare, Bool.and_eq_true]
    exact ⟨⟨ha, hb⟩, hr⟩

theorem stripWs_no_ws (p : String) : ∀ c ∈ stripWs p, jsWhitespace c = false := by
  intro c hc
  have := List.of_mem_filter hc
  simpa using this

/-- C5: `isValidPhone p` holds exactly when the whitespace-stripped input
decomposes as area code (parenthesised or bare two digits), optional space,
optional leading 9, four digits, optional hyphen, four digits. -/
theorem isValidPhone_spec (p : String) :
    isValidPhone p = true ↔
    ∃ area sp nine D1 hy D2 : List Char,
      ((∃ a b : Char, a.isDigit = true ∧ b.isDigit = true ∧
          area = ['(', a, b, ')']) ∨
       (∃ a b : Char, a.isDigit = true ∧ b.isDigit = true ∧ area = [a, b])) ∧
      (sp = [] ∨ sp = [' ']) ∧
      (nine = [] ∨ nine = ['9']) ∧
      D1.length = 4 ∧ (∀ c ∈ D1, c.isDigit = true) ∧
      (hy = [] ∨ hy = ['-']) ∧
      D2.length = 4 ∧ (∀ c ∈ D2, c.isDigit = true) ∧
      stripWs p = area ++ sp ++ nine ++ D1 ++ hy ++ D2 := by
  unfold isValidPhone phoneMatch
  rw [Bool.or_eq_true]
  constructor
  · intro h
    have main : ∃ area rest : List Char,
        ((∃ a b : Char, a.isDigit = true ∧ b.isDigit = true ∧
            area = ['(', a, b, ')']) ∨
         (∃ a b : Char, a.isDigit = true ∧ b.isDigit = true ∧ area = [a, b])) ∧
        phoneAfterArea rest = true ∧ stripWs p = area ++ rest := by
      rcases h with h | h
      · obtain ⟨a, b, rest, ha, hb, hr, heq⟩ := (phoneParen_iff _).mp h
        exact ⟨['(', a, b, ')'], rest, Or.inl ⟨a, b, ha, hb, rfl⟩, hr, heq⟩
      · obtain ⟨a, b, rest, ha, hb, hr, heq⟩ := (phoneBare_iff _).mp h
        exact ⟨[a, b], rest, Or.inr ⟨a, b, ha, hb, rfl⟩, hr, heq⟩
    obtain ⟨area, rest, harea, hrest, heq⟩ := main
    obtain ⟨sp, r9, hsp, h9, heqr⟩ := (phoneAfterArea_iff rest).mp hrest
    -- the stripped input contains no whitespace, so the optional `\s` is empty
    have hsp' : sp = [] := by
      rcases hsp with rfl | ⟨w, hw, rfl⟩
      · rfl
      · exfalso
        have hmem : w ∈ stripWs p := by
          rw [heq, heqr]; simp
        rw [stripWs_no_ws p w hmem] at hw
        exact Bool.false_ne_true hw
    subst hsp'
    simp only [List.nil_append] at heqr
    subst heqr
    obtain ⟨nine, rc, hnine, hcore, heqc⟩ := (phoneAfter9_iff rest).mp h9
    obtain ⟨D1, re, hD1l, hD1, hend, heqd⟩ := (phoneCore_iff rc).mp hcore
    obtain ⟨hy, D2, hhy, hD2l, hD2, heqe⟩ := (phoneEnd_iff re).mp hend
    refine ⟨area, [], nine, D1, hy, D2, harea, Or.inl rfl, hnine, hD1l, hD1,
      hhy, hD2l, hD2, ?_⟩
    rw [heq, heqc, heqd, heqe]
    simp [List.append_assoc]
  · rintro ⟨area, sp, nine, D1, hy, D2, harea, hsp, hnine, hD1l, hD1, hhy,
      hD2l, hD2, heq⟩
    -- the optional-space alternative cannot occur: a space would survive
    -- stripping, which is impossible
    have hsp' : sp = [] := by
      rcases hsp with rfl | rfl
      · rfl
      · exfalso
        have hmem : ' ' ∈ stripWs p := by
          rw [heq]; simp
        have := stripWs_no_ws p ' ' hmem
        simp [jsWhitespace] at this
    subst hsp'
    have hrest : phoneAfterArea (nine ++ D1 ++ hy ++ D2) = true := by
      refine (phoneAfterArea_iff _).mpr ⟨[], nine ++ D1 ++ hy ++ D2, Or.inl rfl, ?_, by simp⟩
      refine (phoneAfter9_iff _).mpr ⟨nine, D1 ++ hy ++ D2, hnine, ?_, by simp [List.append_assoc]⟩
      refine (phoneCore_iff _).mpr ⟨D1, hy ++ D2, hD1l, hD1, ?_, by simp [List.append_assoc]⟩
      exact (phoneEnd_iff _).mpr ⟨hy, D2, hhy, hD2l, hD2, rfl⟩
    rcases harea with ⟨a, b, ha, hb, rfl⟩ | ⟨a, b, ha, hb, rfl⟩
    · refine Or.inl ((phoneParen_iff _).mpr ⟨a, b, nine ++ D1 ++ hy ++ D2, ha, hb, hrest, ?_⟩)
      rw [heq]; simp [List.append_assoc]
    · refine Or.inr ((phoneBare_iff _).mpr ⟨a, b, nine ++ D1 ++ hy ++ D2, ha, hb, hrest, ?_⟩)
      rw [heq]; simp [List.append_assoc]

/-! ## Form submission flow (`FormManager`, src/script.js lines 290-361)

`validateForm` collects the error messages of lines 303-332; the
submit-handler (lines 290-301) calls `submitForm` only when that list is
empty.  `submitForm` (lines 334-361) sets the busy state, awaits the
simulated submission inside `try`, opens the WhatsApp deep link, shows the
success panel and resets the form; a thrown error is caught and shown as one
generic message; the `finally` block clears the busy state on every path.
The flow is embedded as the sequence of user-visible effects it performs. -/

structure ContactFormData where
  name : Option String
  email : Option String
  phone : Option String
  goal : Option String
  message : Option String

/-- JavaScript truthiness of an optional string field: `undefined` and the
empty string are falsy. -/
def fieldTruthy : Option String → Bool
  | none => false
  | some s => !s.isEmpty

/-- `String.prototype.trim()`: strip `\s` characters from both ends. -/
def jsTrim (s : String) : String :=
  (((s.toList.dropWhile jsWhitespace).reverse.dropWhile jsWhitespace).reverse).asString

/-- `!data.name || data.name.trim().length < 2` -/
def nameInvalid (v : Option String) : Bool :=
  !fieldTruthy v || decide ((jsTrim (v.getD "")).toList.length < 2)

/-- `!data.email || !Utils.isValidEmail(data.email)` -/
def emailInvalid (v : Option String) : Bool :=
  !fieldTruthy v || !isValidEmail (v.getD "")

/-- `!data.phone || !Utils.isValidPhone(data.phone)` -/
def phoneInvalid (v : Option String) : Bool :=
  !fieldTruthy v || !isValidPhone (v.getD "")

/-- `FormManager.validateForm`: the aggregated list of error messages. -/
def validateForm (d : ContactFormData) : List String :=
  (if nameInvalid d.name then ["Nome deve ter pelo menos 2 caracteres"] else []) ++
  (if emailInvalid d.email then ["Email inválido"] else []) ++
  (if phoneInvalid d.phone then ["Telefone inválido"] else []) ++
  (if !fieldTruthy d.goal then ["Selecione seu objetivo"] else [])

/-- The user-visible effects of the submission flow, in order. -/
inductive FormEvent where
  | setBusy : FormEvent
  | clearBusy : FormEvent
  | openWhatsApp : FormEvent
  | showSuccess : FormEvent
  | resetForm : FormEvent
  | showGenericError : FormEvent
  | showValidationErrors (errors : List String) : FormEvent
deriving DecidableEq

/-- `FormManager.submitForm`: busy state on; on success open the deep link,
show success and reset; on a thrown error show the single generic message;
the `finally` block always clears the busy state last. -/
def submitForm (throws : Bool) : List FormEvent :=
  [FormEvent.setBusy] ++
  (if throws then [FormEvent.showGenericError]
   else [FormEvent.openWhatsApp, FormEvent.showSuccess, FormEvent.resetForm]) ++
  [FormEvent.clearBusy]

/-- The submit-handler: validate, then either run `submitForm` or show the
aggregate error panel. -/
def handleFormSubmission (d : ContactFormData) (throws : Bool) : List FormEvent :=
  if (validateForm d).isEmpty then submitForm throws
  else [FormEvent.showValidationErrors (validateForm d)]

/-- C7: when the trimmed name is shorter than 2 characters, validation fails
with the name-too-short message, `submitForm` never runs: the trace is just
the aggregate error panel, with no busy state and no WhatsApp deep link. -/
theorem short_name_blocks_submission (d : ContactFormData) (throws : Bool)
    (h : (jsTrim (d.name.getD "")).toList.length < 2) :
    "Nome deve ter pelo menos 2 caracteres" ∈ validateForm d ∧
    handleFormSubmission d throws =
      [FormEvent.showValidationErrors (validateForm d)] ∧
    FormEvent.setBusy ∉ handleFormSubmission d throws ∧
    FormEvent.openWhatsApp ∉ handleFormSubmission d throws := by
  have hname : nameInvalid d.name = true := by
    unfold nameInvalid
    rw [Bool.or_eq_true, decide_eq_true_eq]
    exact Or.inr h
  have hmem : "Nome deve ter pelo menos 2 caracteres" ∈ validateForm d := by
    unfold validateForm
    rw [hname]
    simp
  have hne : ¬ (validateForm d).isEmpty = true := by
    intro hempty
    rw [List.isEmpty_iff] at hempty
    rw [hempty] at hmem
    exact absurd hmem (List.not_mem_nil _)
  have htrace : handleFormSubmission d throws =
      [FormEvent.showValidationErrors (validateForm d)] := by
    unfold handleFormSubmission
    rw [if_neg hne]
  refine ⟨hmem, htrace, ?_, ?_⟩ <;> rw [htrace] <;> simp

/-- C7 witness: `name = "A"` with otherwise valid fields. -/
theorem short_name_blocks_submission_witness :
    FormEvent.setBusy ∉ handleFormSubmission
      ⟨some "A", some "a@b.co", some "(81) 98888-7777", some "emagrecimento",
        none⟩ false ∧
    FormEvent.openWhatsApp ∉ handleFormSubmission
      ⟨some "A", some "a@b.co", some "(81) 98888-7777", some "emagrecimento",
        none⟩ false :=
  ((short_name_blocks_submission
      ⟨some "A", some "a@b.co", some "(81) 98888-7777", some "emagrecimento",
        none⟩ false (by decide)).2.2)

/-- C8: on both exit paths of `submitForm` the busy state is cleared exactly
once and as the last action; when the submission throws, no deep link is
opened, the success path is skipped, and a single generic error message is
shown. -/
theorem submitForm_cleanup :
    ((submitForm true).count FormEvent.clearBusy = 1 ∧
     (submitForm true).getLast? = some FormEvent.clearBusy ∧
     FormEvent.openWhatsApp ∉ submitForm true ∧
     FormEvent.showSuccess ∉ submitForm true ∧
     (submitForm true).count FormEvent.showGenericError = 1) ∧
    ((submitForm false).count FormEvent.clearBusy = 1 ∧
     (submitForm false).getLast? = some FormEvent.clearBusy ∧
     FormEvent.showGenericError ∉ submitForm false) := by
  decide

end Personal
